import Mathlib

/-!
A shallow embedding of the maze / collision / serialization core of the
rust_pac repository (src/lib.rs, src/main.rs, src/bin/editor.rs).

Embedding conventions:
* `Vec<Vec<u8>>` tile maps become `List (List ℕ)`.  Tile codes are small
  (0..3 for logic, 100..115 for display), so no modular arithmetic on `u8`
  is ever exercised by the source and plain `ℕ` is faithful.
* `isize` coordinates become `ℤ` (the source never overflows an `isize`).
* `f32` pixel coordinates become `ℚ`.  All pixel arithmetic in the source
  is subtraction, addition and division by the power of two 8.0, which is
  exact on the dyadic values the game uses; the rational model performs
  the same operations exactly.  The Rust cast `as isize` on a finite
  float truncates toward zero, which `truncQ` reproduces.
* `&str` input becomes `List Char` (a Rust string slice is a sequence of
  Unicode scalar values); `str::len` (UTF-8 byte count) becomes `utf8Len`.
* Fallible paths: none — every modelled function in the source is total.
-/

/-- Size of a single tile in pixels (source constant TILE_SIZE = 8.0). -/
def TILE_SIZE : ℚ := 8

/-- Vertical offset of the maze (source constant MAZE_OFFSET_Y = TILE_SIZE * 5.0). -/
def MAZE_OFFSET_Y : ℚ := TILE_SIZE * 5

/-- Offset added to a wall mask in display maps (source constant WALL_CODE_OFFSET = 100u8). -/
def WALL_CODE_OFFSET : ℕ := 100

/-- Player movement speed in pixels per second (source constant PLAYER_SPEED = 40.0). -/
def PLAYER_SPEED : ℚ := 40

/-- Cardinal directions plus a stopped state (source enum Direction). -/
inductive Direction where
  | North
  | East
  | South
  | West
  | Stopped
  deriving DecidableEq, BEq

/-- Wall test of src/lib.rs is_wall_at: out-of-bounds coordinates count as
walls; the x bound is checked against the indexed row's own length. -/
def is_wall_at (x y : ℤ) (map : List (List ℕ)) : Bool :=
  if y < 0 || (map.length : ℤ) ≤ y then true
  else
    let row := map.getD y.toNat []
    if x < 0 || (row.length : ℤ) ≤ x then true
    else row.getD x.toNat 0 == 1

/-- Wall test of src/main.rs is_wall_at: same policy, but the x bound is
checked against the length of the first row (map[0]); the Rust `||` is
short-circuit, so map[0] is only reached when the map is nonempty. -/
def is_wall_at_main (x y : ℤ) (map : List (List ℕ)) : Bool :=
  if y < 0 || (map.length : ℤ) ≤ y || x < 0 || ((map.getD 0 []).length : ℤ) ≤ x then true
  else (map.getD y.toNat []).getD x.toNat 0 == 1

/-- Truncation toward zero, the behaviour of Rust's `as isize` cast on a
finite floating-point value. -/
def truncQ (q : ℚ) : ℤ := if q < 0 then -⌊-q⌋ else ⌊q⌋

/-- Pixel-to-tile conversion plus walkability test (src/lib.rs
is_tile_walkable): divide by TILE_SIZE, cast to isize, negate is_wall_at. -/
def is_tile_walkable (pixel_x pixel_y : ℚ) (map : List (List ℕ)) : Bool :=
  let map_y : ℤ := truncQ ((pixel_y - MAZE_OFFSET_Y) / TILE_SIZE)
  let map_x : ℤ := truncQ (pixel_x / TILE_SIZE)
  !(is_wall_at map_x map_y map)

/-- The pixel-to-tile mapping written with mathematical floor, following
the spec's words (col = floor(x / TILE_SIZE), row = floor((y -
MAZE_OFFSET_Y) / TILE_SIZE)), stated for comparison with the source's
truncation-based is_tile_walkable. -/
def is_tile_walkable_floorSpec (pixel_x pixel_y : ℚ) (map : List (List ℕ)) : Bool :=
  !(is_wall_at ⌊pixel_x / TILE_SIZE⌋ ⌊(pixel_y - MAZE_OFFSET_Y) / TILE_SIZE⌋ map)

/-- Axis-aligned rectangle, the fields of ggez's graphics::Rect used by the source. -/
structure Rect where
  x : ℚ
  y : ℚ
  w : ℚ
  h : ℚ
  deriving DecidableEq

/-- Corner-based collision test (src/lib.rs is_rect_walkable): all four
inset corners must land on walkable tiles. -/
def is_rect_walkable (rect : Rect) (level_map : List (List ℕ)) : Bool :=
  let right_edge := rect.x + rect.w - 1
  let bottom_edge := rect.y + rect.h - 1
  if !(is_tile_walkable rect.x rect.y level_map) then false
  else if !(is_tile_walkable right_edge rect.y level_map) then false
  else if !(is_tile_walkable rect.x bottom_edge level_map) then false
  else if !(is_tile_walkable right_edge bottom_edge level_map) then false
  else true

/-- Character-to-tile mapping of load_level_from_string. -/
def tileOfChar (c : Char) : ℕ :=
  match c with
  | '#' => 1
  | '.' => 2
  | 'o' => 3
  | _ => 0

/-- Tile-to-character mapping of save_level_to_string. -/
def charOfTile (cell : ℕ) : Char :=
  match cell with
  | 1 => '#'
  | 2 => '.'
  | 3 => 'o'
  | _ => ' '

/-- UTF-8 byte length of a character sequence (Rust str::len). -/
def utf8Len (l : List Char) : ℕ := (l.map Char.utf8Size).sum

/-- Maximum of a list of naturals, 0 on empty (Rust Iterator::max / unwrap_or(0)). -/
def listMax (l : List ℕ) : ℕ := l.foldr max 0

/-- Rust Vec::resize with fill value 0: truncate to n or pad with zeros up to n. -/
def resizeList (l : List ℕ) (n : ℕ) : List ℕ :=
  if n ≤ l.length then l.take n else l ++ List.replicate (n - l.length) 0

/-- Rust str::split_inclusive at the newline character: chunks keep their
terminating newline; no trailing empty chunk is produced. -/
def splitInclusiveNl : List Char → List (List Char)
  | [] => []
  | c :: rest =>
    if c = '\n' then ['\n'] :: splitInclusiveNl rest
    else
      match splitInclusiveNl rest with
      | [] => [[c]]
      | chunk :: chunks => (c :: chunk) :: chunks

/-- The per-chunk cleanup of Rust str::lines: strip one trailing newline
and, only if a newline was stripped, one trailing carriage return. -/
def stripNewline (l : List Char) : List Char :=
  match l.getLast? with
  | some c =>
    if c = '\n' then
      let l2 := l.dropLast
      match l2.getLast? with
      | some c2 => if c2 = '\r' then l2.dropLast else l2
      | none => l2
    else l
  | none => l

/-- Rust str::lines, as used by load_level_from_string. -/
def linesOf (s : List Char) : List (List Char) := (splitInclusiveNl s).map stripNewline

/-- Level parser (src/lib.rs load_level_from_string): split into lines, map
characters to tile codes, pad every row to the byte width of the longest line. -/
def load_level_from_string (content : List Char) : List (List ℕ) :=
  let lines := linesOf content
  let max_width := listMax (lines.map utf8Len)
  lines.map fun line => resizeList (line.map tileOfChar) max_width

/-- Rust slice join with the newline separator (Vec::join used by
save_level_to_string). -/
def joinNl : List (List Char) → List Char
  | [] => []
  | [r] => r
  | r :: rest => r ++ '\n' :: joinNl rest

/-- Level serializer (src/lib.rs save_level_to_string): map tile codes to
characters row by row and join the rows with newlines. -/
def save_level_to_string (map : List (List ℕ)) : List Char :=
  joinNl (map.map fun row => row.map charOfTile)

/-- Neighbor wall mask accumulated by the display-map loop of
GameState::new (src/main.rs): north +1, south +2, west +4, east +8,
each tested with main.rs's is_wall_at. -/
def wallMaskAt (map : List (List ℕ)) (x y : ℤ) : ℕ :=
  (if is_wall_at_main x (y - 1) map then 1 else 0) +
  (if is_wall_at_main x (y + 1) map then 2 else 0) +
  (if is_wall_at_main (x - 1) y map then 4 else 0) +
  (if is_wall_at_main (x + 1) y map then 8 else 0)

/-- The display-map computation of GameState::new (src/main.rs): clone the
level map and overwrite every wall cell with its mask plus
WALL_CODE_OFFSET; all other cells pass through unchanged. -/
def compute_display_map (map : List (List ℕ)) : List (List ℕ) :=
  (List.range map.length).map fun y =>
    (List.range (map.getD y []).length).map fun x =>
      if (map.getD y []).getD x 0 = 1 then wallMaskAt map (x : ℤ) (y : ℤ) + WALL_CODE_OFFSET
      else (map.getD y []).getD x 0

/-- The movement-relevant fields of the source's Player struct: a position
in pixel space, the actual direction, and the buffered desired direction. -/
structure PlayerState where
  posX : ℚ
  posY : ℚ
  direction : Direction
  desired_direction : Direction
  deriving DecidableEq

/-- One step of positional movement in a direction (the match in
GameState::update that adjusts pos by PLAYER_SPEED * dt). -/
def movePos (x y : ℚ) (d : Direction) (dist : ℚ) : ℚ × ℚ :=
  match d with
  | Direction.North => (x, y - dist)
  | Direction.South => (x, y + dist)
  | Direction.West => (x - dist, y)
  | Direction.East => (x + dist, y)
  | Direction.Stopped => (x, y)

/-- The tile-sized bounding box centered at a player position
(Rect::new(pos.x - TILE_SIZE / 2, pos.y - TILE_SIZE / 2, TILE_SIZE, TILE_SIZE)). -/
def playerRect (x y : ℚ) : Rect :=
  { x := x - TILE_SIZE / 2, y := y - TILE_SIZE / 2, w := TILE_SIZE, h := TILE_SIZE }

/-- The direction the player will actually move with this tick: the desired
direction if it is not Stopped and its hypothetical move is walkable,
otherwise the current direction (first half of GameState::update). -/
def effectiveDirection (dt : ℚ) (map : List (List ℕ)) (s : PlayerState) : Direction :=
  let p := movePos s.posX s.posY s.desired_direction (PLAYER_SPEED * dt)
  if (s.desired_direction != Direction.Stopped) && is_rect_walkable (playerRect p.1 p.2) map then
    s.desired_direction
  else s.direction

/-- One simulation tick (GameState::update, src/main.rs): resolve the
buffered turn, move in the resulting direction, and commit the new position
only if its bounding box is walkable, stopping otherwise. -/
def update (dt : ℚ) (map : List (List ℕ)) (s : PlayerState) : PlayerState :=
  let dir := effectiveDirection dt map s
  let next_pos := movePos s.posX s.posY dir (PLAYER_SPEED * dt)
  if is_rect_walkable (playerRect next_pos.1 next_pos.2) map then
    { s with posX := next_pos.1, posY := next_pos.2, direction := dir }
  else
    { s with direction := Direction.Stopped }

/-- Iterated simulation ticks over a list of frame times. -/
def runUpdates (map : List (List ℕ)) (s : PlayerState) (dts : List ℚ) : PlayerState :=
  dts.foldl (fun st d => update d map st) s

/-! ## Helper lemmas -/

theorem getD_range_map {α : Type} (n : ℕ) (f : ℕ → α) (d : α) (i : ℕ) (h : i < n) :
    ((List.range n).map f).getD i d = f i := by
  rw [List.getD_eq_getElem?_getD, List.getElem?_map, List.getElem?_range h]
  rfl

theorem getD_range_map_ge {α : Type} (n : ℕ) (f : ℕ → α) (d : α) (i : ℕ) (h : n ≤ i) :
    ((List.range n).map f).getD i d = d := by
  rw [List.getD_eq_getElem?_getD, List.getElem?_eq_none (by simpa using h)]
  rfl

theorem mask_bits (a b c d : Bool) :
    ((if a then 1 else 0) + (if b then 2 else 0) + (if c then 4 else 0) +
        (if d then 8 else 0) : ℕ) ≤ 15 ∧
      Nat.testBit ((if a then 1 else 0) + (if b then 2 else 0) + (if c then 4 else 0) +
        (if d then 8 else 0)) 0 = a ∧
      Nat.testBit ((if a then 1 else 0) + (if b then 2 else 0) + (if c then 4 else 0) +
        (if d then 8 else 0)) 1 = b ∧
      Nat.testBit ((if a then 1 else 0) + (if b then 2 else 0) + (if c then 4 else 0) +
        (if d then 8 else 0)) 2 = c ∧
      Nat.testBit ((if a then 1 else 0) + (if b then 2 else 0) + (if c then 4 else 0) +
        (if d then 8 else 0)) 3 = d := by
  cases a <;> cases b <;> cases c <;> cases d <;> decide

theorem one_le_utf8Size (c : Char) : 1 ≤ c.utf8Size := by
  simp only [Char.utf8Size]
  repeat' split
  all_goals norm_num

theorem length_le_utf8Len (l : List Char) : l.length ≤ utf8Len l := by
  induction l with
  | nil => simp [utf8Len]
  | cons c t ih =>
    simp only [utf8Len, List.map_cons, List.sum_cons, List.length_cons] at ih ⊢
    have := one_le_utf8Size c
    omega

theorem le_listMax (l : List ℕ) (a : ℕ) (h : a ∈ l) : a ≤ listMax l := by
  induction l with
  | nil => cases h
  | cons b t ih =>
    rcases List.mem_cons.mp h with rfl | h
    · exact le_max_left _ _
    · exact le_trans (ih h) (le_max_right _ _)

theorem resizeList_length (l : List ℕ) (n : ℕ) : (resizeList l n).length = n := by
  rw [resizeList]
  split
  · rw [List.length_take]
    omega
  · rw [List.length_append, List.length_replicate]
    omega

theorem resizeList_of_le (l : List ℕ) (n : ℕ) (h : l.length ≤ n) :
    resizeList l n = l ++ List.replicate (n - l.length) 0 := by
  rw [resizeList]
  split
  · rename_i hle
    have he : l.length = n := by omega
    rw [← he, List.take_length]
    simp [he]
  · rfl

theorem load_shape (content : List Char) :
    load_level_from_string content =
      (linesOf content).map
        (fun line => line.map tileOfChar ++
          List.replicate (listMax ((linesOf content).map utf8Len) - line.length) 0) := by
  simp only [load_level_from_string]
  apply List.map_congr_left
  intro line hline
  have h1 : line.length ≤ utf8Len line := length_le_utf8Len line
  have h2 : utf8Len line ≤ listMax ((linesOf content).map utf8Len) :=
    le_listMax _ _ (List.mem_map_of_mem _ hline)
  rw [resizeList_of_le _ _ (by simpa using le_trans h1 h2), List.length_map]

theorem tileOfChar_cases (c : Char) :
    tileOfChar c = 0 ∨ tileOfChar c = 1 ∨ tileOfChar c = 2 ∨ tileOfChar c = 3 := by
  unfold tileOfChar
  repeat' split
  all_goals simp

theorem load_row_length (content : List Char) :
    ∀ row ∈ load_level_from_string content,
      row.length = listMax ((linesOf content).map utf8Len) := by
  intro row hrow
  simp only [load_level_from_string, List.mem_map] at hrow
  obtain ⟨line, _, rfl⟩ := hrow
  exact resizeList_length _ _

theorem load_cells_le (content : List Char) :
    ∀ row ∈ load_level_from_string content, ∀ t ∈ row, t ≤ 3 := by
  intro row hrow t ht
  have hsh := load_shape content
  rw [hsh] at hrow
  simp only [List.mem_map] at hrow
  obtain ⟨line, _, rfl⟩ := hrow
  rcases List.mem_append.mp ht with hm | hm
  · obtain ⟨c, _, rfl⟩ := List.mem_map.mp hm
    rcases tileOfChar_cases c with h | h | h | h <;> omega
  · rw [List.eq_of_mem_replicate hm]
    omega

theorem mem_of_getLast?_eq {l : List Char} {c : Char} (h : l.getLast? = some c) : c ∈ l := by
  obtain ⟨hne, rfl⟩ := List.mem_getLast?_eq_getLast (Option.mem_def.mpr h)
  exact List.getLast_mem hne

theorem splitInc_append_nl (r t : List Char) (h : '\n' ∉ r) :
    splitInclusiveNl (r ++ '\n' :: t) = (r ++ ['\n']) :: splitInclusiveNl t := by
  induction r with
  | nil => simp [splitInclusiveNl]
  | cons c r ih =>
    have hc : c ≠ '\n' := fun hh => h (hh ▸ List.mem_cons_self c r)
    have h' : '\n' ∉ r := fun hm => h (List.mem_cons_of_mem _ hm)
    simp only [List.cons_append, splitInclusiveNl, List.append_eq, if_neg hc, ih h']

theorem splitInc_singleton (r : List Char) (h : '\n' ∉ r) (hne : r ≠ []) :
    splitInclusiveNl r = [r] := by
  induction r with
  | nil => cases hne rfl
  | cons c r ih =>
    have hc : c ≠ '\n' := fun hh => h (hh ▸ List.mem_cons_self c r)
    have h' : '\n' ∉ r := fun hm => h (List.mem_cons_of_mem _ hm)
    by_cases hr : r = []
    · subst hr
      simp [splitInclusiveNl, hc]
    · simp only [splitInclusiveNl, if_neg hc, ih h' hr]

theorem stripNewline_concat_nl (r : List Char) (h : '\r' ∉ r) :
    stripNewline (r ++ ['\n']) = r := by
  simp only [stripNewline, List.getLast?_concat, List.dropLast_concat]
  cases hl : r.getLast? with
  | none => simp
  | some c2 =>
    have hc2 : c2 ≠ '\r' := fun hh => h (hh ▸ mem_of_getLast?_eq hl)
    simp [hc2]

theorem stripNewline_no_nl (r : List Char) (h : '\n' ∉ r) : stripNewline r = r := by
  simp only [stripNewline]
  cases hl : r.getLast? with
  | none => rfl
  | some c =>
    have hc : c ≠ '\n' := fun hh => h (hh ▸ mem_of_getLast?_eq hl)
    simp [hc]

theorem linesOf_joinNl (rs : List (List Char))
    (h : ∀ r ∈ rs, '\n' ∉ r ∧ '\r' ∉ r ∧ r ≠ []) :
    linesOf (joinNl rs) = rs := by
  induction rs with
  | nil => rfl
  | cons r rest ih =>
    obtain ⟨h1, h2, h3⟩ := h r (List.mem_cons_self r rest)
    cases rest with
    | nil =>
      simp only [joinNl, linesOf, splitInc_singleton r h1 h3, List.map_cons, List.map_nil]
      rw [stripNewline_no_nl r h1]
    | cons r2 rest2 =>
      have hrest : ∀ a ∈ r2 :: rest2, '\n' ∉ a ∧ '\r' ∉ a ∧ a ≠ [] :=
        fun a ha => h a (List.mem_cons_of_mem _ ha)
      have hj : joinNl (r :: r2 :: rest2) = r ++ '\n' :: joinNl (r2 :: rest2) := rfl
      rw [linesOf, hj, splitInc_append_nl _ _ h1, List.map_cons, stripNewline_concat_nl r h2]
      have hih := ih hrest
      rw [linesOf] at hih
      rw [hih]

theorem charOfTile_props (t : ℕ) :
    charOfTile t ≠ '\n' ∧ charOfTile t ≠ '\r' ∧ (charOfTile t).utf8Size = 1 := by
  unfold charOfTile
  repeat' split
  all_goals decide

theorem tileOfChar_charOfTile (t : ℕ) (h : t ≤ 3) : tileOfChar (charOfTile t) = t := by
  interval_cases t <;> decide

theorem utf8Len_of_ascii (l : List Char) (h : ∀ c ∈ l, c.utf8Size = 1) :
    utf8Len l = l.length := by
  induction l with
  | nil => rfl
  | cons c t ih =>
    simp only [utf8Len, List.map_cons, List.sum_cons, List.length_cons] at ih ⊢
    rw [h c (List.mem_cons_self c t), ih fun a ha => h a (List.mem_cons_of_mem _ ha)]
    omega

theorem listMax_const (l : List ℕ) (W : ℕ) (hne : l ≠ []) (h : ∀ a ∈ l, a = W) :
    listMax l = W := by
  induction l with
  | nil => cases hne rfl
  | cons b t ih =>
    have hb : b = W := h b (List.mem_cons_self b t)
    by_cases ht : t = []
    · subst ht
      simp [listMax, hb]
    · have := ih ht fun a ha => h a (List.mem_cons_of_mem _ ha)
      simp only [listMax, List.foldr_cons] at this ⊢
      rw [hb, this]
      omega

theorem resizeList_self (l : List ℕ) : resizeList l l.length = l := by
  rw [resizeList, if_pos le_rfl, List.take_length]

theorem update_preserve (dt : ℚ) (map : List (List ℕ)) (s : PlayerState)
    (h : is_rect_walkable (playerRect s.posX s.posY) map = true) :
    is_rect_walkable (playerRect (update dt map s).posX (update dt map s).posY) map = true := by
  simp only [update]
  by_cases hw : is_rect_walkable
      (playerRect (movePos s.posX s.posY (effectiveDirection dt map s) (PLAYER_SPEED * dt)).1
        (movePos s.posX s.posY (effectiveDirection dt map s) (PLAYER_SPEED * dt)).2) map = true
  · rw [if_pos hw]
    exact hw
  · rw [if_neg hw]
    exact h

theorem runUpdates_preserve (map : List (List ℕ)) (dts : List ℚ) (s : PlayerState)
    (h : is_rect_walkable (playerRect s.posX s.posY) map = true) :
    is_rect_walkable (playerRect (runUpdates map s dts).posX (runUpdates map s dts).posY) map =
      true := by
  induction dts generalizing s with
  | nil => exact h
  | cons d ds ih => exact ih (update d map s) (update_preserve d map s h)

theorem direction_bne_iff (a b : Direction) : (a != b) = true ↔ a ≠ b := by
  cases a <;> cases b <;> decide

/-! ## Claim theorems -/

/-- C1: is_wall_at returns true exactly when the coordinate is out of
bounds (col < 0, row < 0, row beyond the number of rows, or col beyond the
indexed row's length) or the stored tile code equals 1 (Wall); in
particular every out-of-bounds coordinate is reported as a wall and every
in-bounds coordinate is a wall precisely when its tile code is 1. -/
theorem is_wall_at_bounds_spec (map : List (List ℕ)) (x y : ℤ) :
    is_wall_at x y map = true ↔
      y < 0 ∨ (map.length : ℤ) ≤ y ∨ x < 0 ∨ ((map.getD y.toNat []).length : ℤ) ≤ x ∨
        (map.getD y.toNat []).getD x.toNat 0 = 1 := by
  simp only [is_wall_at]
  split_ifs with h1 h2
  · simp only [Bool.or_eq_true, decide_eq_true_eq] at h1
    simp only [true_iff]
    tauto
  · simp only [Bool.or_eq_true, decide_eq_true_eq] at h2
    simp only [true_iff]
    tauto
  · simp only [Bool.or_eq_true, decide_eq_true_eq] at h1 h2
    push_neg at h1 h2
    simp only [beq_iff_eq]
    constructor
    · intro hc
      tauto
    · rintro (hc | hc | hc | hc | hc)
      · exfalso; omega
      · exfalso; omega
      · exfalso; omega
      · exfalso; omega
      · exact hc

/-- C2: in every update step the position is changed only to a position
whose tile-sized bounding box is walkable; when the walkability test of the
candidate position fails, the position is unchanged and the actual
direction becomes Stopped; and from any state whose position has a walkable
bounding box, every state reached by a sequence of update steps still has a
walkable bounding box. -/
theorem movement_never_commits_unwalkable (map : List (List ℕ)) (dt : ℚ) (s : PlayerState)
    (dts : List ℚ) :
    ((update dt map s).posX = s.posX ∧ (update dt map s).posY = s.posY ∨
      is_rect_walkable (playerRect (update dt map s).posX (update dt map s).posY) map = true) ∧
    (is_rect_walkable
        (playerRect (movePos s.posX s.posY (effectiveDirection dt map s) (PLAYER_SPEED * dt)).1
          (movePos s.posX s.posY (effectiveDirection dt map s) (PLAYER_SPEED * dt)).2) map =
          false →
      (update dt map s).posX = s.posX ∧ (update dt map s).posY = s.posY ∧
        (update dt map s).direction = Direction.Stopped) ∧
    (is_rect_walkable (playerRect s.posX s.posY) map = true →
      is_rect_walkable (playerRect (runUpdates map s dts).posX (runUpdates map s dts).posY) map =
        true) := by
  refine ⟨?_, ?_, runUpdates_preserve map dts s⟩
  · by_cases hw : is_rect_walkable
        (playerRect (movePos s.posX s.posY (effectiveDirection dt map s) (PLAYER_SPEED * dt)).1
          (movePos s.posX s.posY (effectiveDirection dt map s) (PLAYER_SPEED * dt)).2) map = true
    · right
      simp only [update]
      rw [if_pos hw]
      exact hw
    · left
      simp only [update]
      rw [if_neg hw]
      exact ⟨rfl, rfl⟩
  · intro hw
    have hw' : ¬(is_rect_walkable
        (playerRect (movePos s.posX s.posY (effectiveDirection dt map s) (PLAYER_SPEED * dt)).1
          (movePos s.posX s.posY (effectiveDirection dt map s) (PLAYER_SPEED * dt)).2) map =
          true) := by
      simp [hw]
    simp only [update]
    rw [if_neg hw']
    exact ⟨rfl, rfl, rfl⟩

/-- C2 witness: a concrete two-step run from a walkable start on a one-row
map keeps the bounding box walkable. -/
theorem movement_witness :
    is_rect_walkable
      (playerRect
        (runUpdates [[0, 0]] (PlayerState.mk 4 44 Direction.Stopped Direction.Stopped) [1, 1]).posX
        (runUpdates [[0, 0]] (PlayerState.mk 4 44 Direction.Stopped Direction.Stopped)
          [1, 1]).posY) [[0, 0]] = true :=
  (movement_never_commits_unwalkable [[0, 0]] 1
      (PlayerState.mk 4 44 Direction.Stopped Direction.Stopped) [1, 1]).2.2 (by
    simp only [is_rect_walkable, is_tile_walkable, playerRect]
    norm_num [truncQ, TILE_SIZE, MAZE_OFFSET_Y]
    decide)

/-- C3: the display map has the same dimensions as the level map; every
wall cell (code 1) becomes WALL_CODE_OFFSET plus a 4-bit mask whose bit 0
records the north neighbor, bit 1 south, bit 2 west and bit 3 east (each
tested with is_wall_at_main, so out-of-bounds neighbors count as walls),
hence lies between 100 and 115; every non-wall cell is copied unchanged. -/
theorem display_map_spec (map : List (List ℕ)) :
    (compute_display_map map).length = map.length ∧
    (∀ y : ℕ, ((compute_display_map map).getD y []).length = (map.getD y []).length) ∧
    (∀ y x : ℕ, y < map.length → x < (map.getD y []).length →
      (((map.getD y []).getD x 0 ≠ 1 →
          ((compute_display_map map).getD y []).getD x 0 = (map.getD y []).getD x 0) ∧
       ((map.getD y []).getD x 0 = 1 →
          ((compute_display_map map).getD y []).getD x 0 =
              wallMaskAt map (x : ℤ) (y : ℤ) + WALL_CODE_OFFSET ∧
            WALL_CODE_OFFSET ≤ ((compute_display_map map).getD y []).getD x 0 ∧
            ((compute_display_map map).getD y []).getD x 0 ≤ WALL_CODE_OFFSET + 15 ∧
            Nat.testBit (((compute_display_map map).getD y []).getD x 0 - WALL_CODE_OFFSET) 0 =
              is_wall_at_main (x : ℤ) ((y : ℤ) - 1) map ∧
            Nat.testBit (((compute_display_map map).getD y []).getD x 0 - WALL_CODE_OFFSET) 1 =
              is_wall_at_main (x : ℤ) ((y : ℤ) + 1) map ∧
            Nat.testBit (((compute_display_map map).getD y []).getD x 0 - WALL_CODE_OFFSET) 2 =
              is_wall_at_main ((x : ℤ) - 1) (y : ℤ) map ∧
            Nat.testBit (((compute_display_map map).getD y []).getD x 0 - WALL_CODE_OFFSET) 3 =
              is_wall_at_main ((x : ℤ) + 1) (y : ℤ) map))) := by
  refine ⟨by simp [compute_display_map], ?_, ?_⟩
  · intro y
    by_cases hy : y < map.length
    · rw [compute_display_map, getD_range_map _ _ _ _ hy]
      simp
    · push_neg at hy
      rw [compute_display_map, getD_range_map_ge _ _ _ _ hy, List.getD_eq_default _ _ (by omega)]
  · intro y x hy hx
    have hrow : (compute_display_map map).getD y [] =
        (List.range (map.getD y []).length).map fun x =>
          if (map.getD y []).getD x 0 = 1 then wallMaskAt map (x : ℤ) (y : ℤ) + WALL_CODE_OFFSET
          else (map.getD y []).getD x 0 := by
      rw [compute_display_map, getD_range_map _ _ _ _ hy]
    have hcell : ((compute_display_map map).getD y []).getD x 0 =
        if (map.getD y []).getD x 0 = 1 then wallMaskAt map (x : ℤ) (y : ℤ) + WALL_CODE_OFFSET
        else (map.getD y []).getD x 0 := by
      rw [hrow, getD_range_map _ _ _ _ hx]
    constructor
    · intro hne
      rw [hcell, if_neg hne]
    · intro heq
      rw [hcell, if_pos heq]
      have hm := mask_bits (is_wall_at_main (x : ℤ) ((y : ℤ) - 1) map)
        (is_wall_at_main (x : ℤ) ((y : ℤ) + 1) map)
        (is_wall_at_main ((x : ℤ) - 1) (y : ℤ) map)
        (is_wall_at_main ((x : ℤ) + 1) (y : ℤ) map)
      rw [wallMaskAt]
      rw [WALL_CODE_OFFSET]
      refine ⟨rfl, by omega, by omega, ?_, ?_, ?_, ?_⟩ <;>
        · rw [Nat.add_sub_cancel]
          tauto

/-- C3 witness: on the concrete map [[1, 1], [0, 1]] the top-left wall cell
carries its mask plus the offset. -/
theorem display_map_witness :
    ((compute_display_map [[1, 1], [0, 1]]).getD 0 []).getD 0 0 =
        wallMaskAt [[1, 1], [0, 1]] 0 0 + WALL_CODE_OFFSET ∧
      WALL_CODE_OFFSET ≤ ((compute_display_map [[1, 1], [0, 1]]).getD 0 []).getD 0 0 := by
  have h := (display_map_spec [[1, 1], [0, 1]]).2.2 0 0 (by decide) (by decide)
  have h2 := h.2 (by decide)
  exact ⟨h2.1, h2.2.1⟩

/-- C4 counterexample: at pixel (-4, 44) on the one-cell open map the code
reports the tile walkable (the cast truncates -0.5 to column 0), while the
spec's floor-based mapping sends the pixel to column -1, a synthetic wall,
so the claimed floor semantics does not hold for negative coordinates. -/
theorem floorSpec_counterexample :
    is_tile_walkable (-4) 44 [[0]] = true ∧
      is_tile_walkable_floorSpec (-4) 44 [[0]] = false := by
  constructor
  · simp only [is_tile_walkable]
    norm_num [truncQ, TILE_SIZE, MAZE_OFFSET_Y]
    decide
  · simp only [is_tile_walkable_floorSpec]
    norm_num [TILE_SIZE, MAZE_OFFSET_Y]
    decide

/-- C4 amended: is_tile_walkable maps pixels to tiles with truncation
toward zero (the semantics of Rust's float-to-isize cast) and negates
is_wall_at there; this agrees with the spec's floor-based mapping whenever
x is nonnegative and y is at or below the maze offset. -/
theorem is_tile_walkable_trunc (x y : ℚ) (map : List (List ℕ)) :
    is_tile_walkable x y map =
        !(is_wall_at (truncQ (x / TILE_SIZE)) (truncQ ((y - MAZE_OFFSET_Y) / TILE_SIZE)) map) ∧
      (0 ≤ x → MAZE_OFFSET_Y ≤ y →
        is_tile_walkable x y map = is_tile_walkable_floorSpec x y map) := by
  constructor
  · rfl
  · intro hx hy
    have h1 : truncQ (x / TILE_SIZE) = ⌊x / TILE_SIZE⌋ := by
      rw [truncQ, if_neg]
      rw [not_lt]
      exact div_nonneg hx (by norm_num [TILE_SIZE])
    have h2 : truncQ ((y - MAZE_OFFSET_Y) / TILE_SIZE) = ⌊(y - MAZE_OFFSET_Y) / TILE_SIZE⌋ := by
      rw [truncQ, if_neg]
      rw [not_lt]
      exact div_nonneg (by linarith) (by norm_num [TILE_SIZE])
    simp only [is_tile_walkable, is_tile_walkable_floorSpec, h1, h2]

/-- C4 witness: at the in-range pixel (0, 48) the truncation-based code and
the floor-based spec mapping agree. -/
theorem is_tile_walkable_trunc_witness :
    is_tile_walkable 0 48 [[0]] = is_tile_walkable_floorSpec 0 48 [[0]] :=
  (is_tile_walkable_trunc 0 48 [[0]]).2 (by norm_num) (by norm_num [MAZE_OFFSET_Y, TILE_SIZE])

/-- C5: is_rect_walkable is true exactly when all four inset corners of the
rectangle — (x, y), (x+w-1, y), (x, y+h-1) and (x+w-1, y+h-1) — are
walkable tiles, and false exactly when at least one of them is a wall. -/
theorem is_rect_walkable_corners (r : Rect) (map : List (List ℕ)) :
    is_rect_walkable r map = true ↔
      is_tile_walkable r.x r.y map = true ∧
      is_tile_walkable (r.x + r.w - 1) r.y map = true ∧
      is_tile_walkable r.x (r.y + r.h - 1) map = true ∧
      is_tile_walkable (r.x + r.w - 1) (r.y + r.h - 1) map = true := by
  simp only [is_rect_walkable]
  split_ifs with h1 h2 h3 h4 <;> simp_all

/-- C6 counterexample: the single newline input parses to one empty row,
which serializes to the empty string and re-parses to the empty grid, so
parse after serialize is not the identity on all parsed grids. -/
theorem roundtrip_counterexample :
    load_level_from_string (save_level_to_string (load_level_from_string ['\n'])) ≠
      load_level_from_string ['\n'] := by decide

/-- C6 amended: for every parsed grid all of whose rows are nonempty
(positive width — which also covers the empty grid vacuously), parsing its
serialization returns the grid itself. -/
theorem roundtrip_of_rows_nonempty (content : List Char)
    (h : ∀ row ∈ load_level_from_string content, row ≠ []) :
    load_level_from_string (save_level_to_string (load_level_from_string content)) =
      load_level_from_string content := by
  by_cases hnil : load_level_from_string content = []
  · rw [hnil]
    rfl
  · have hW := load_row_length content
    have hcells := load_cells_le content
    set g := load_level_from_string content with hg
    set W := listMax ((linesOf content).map utf8Len) with hWdef
    have hrs : ∀ r ∈ g.map (fun row => row.map charOfTile), '\n' ∉ r ∧ '\r' ∉ r ∧ r ≠ [] := by
      intro r hr
      obtain ⟨row, hrow, rfl⟩ := List.mem_map.mp hr
      refine ⟨?_, ?_, ?_⟩
      · intro hmem
        obtain ⟨t, _, ht⟩ := List.mem_map.mp hmem
        exact (charOfTile_props t).1 ht
      · intro hmem
        obtain ⟨t, _, ht⟩ := List.mem_map.mp hmem
        exact (charOfTile_props t).2.1 ht
      · intro hmem
        exact h row hrow (List.map_eq_nil_iff.mp hmem)
    have hlines : linesOf (save_level_to_string g) = g.map (fun row => row.map charOfTile) := by
      rw [save_level_to_string]
      exact linesOf_joinNl _ hrs
    have hlen1 : ∀ r ∈ (g.map (fun row => row.map charOfTile)).map utf8Len, r = W := by
      intro a ha
      obtain ⟨r, hr, rfl⟩ := List.mem_map.mp ha
      obtain ⟨row, hrow, rfl⟩ := List.mem_map.mp hr
      rw [utf8Len_of_ascii]
      · rw [List.length_map]
        exact hW row hrow
      · intro c hc
        obtain ⟨t, _, ht⟩ := List.mem_map.mp hc
        exact ht ▸ (charOfTile_props t).2.2
    have hW2 : listMax ((linesOf (save_level_to_string g)).map utf8Len) = W := by
      rw [hlines]
      apply listMax_const _ _ _ hlen1
      simp [hnil]
    rw [load_level_from_string, hW2, hlines, List.map_map]
    conv_rhs => rw [← List.map_id g]
    apply List.map_congr_left
    intro row hrow
    simp only [Function.comp_apply, id_eq]
    rw [List.map_map]
    have hmapid : row.map (tileOfChar ∘ charOfTile) = row := by
      conv_rhs => rw [← List.map_id row]
      apply List.map_congr_left
      intro t ht
      exact tileOfChar_charOfTile t (hcells row hrow t ht)
    rw [hmapid, ← hW row hrow, resizeList_self]

/-- C6 witness: the one-character level round-trips. -/
theorem roundtrip_witness :
    (∀ row ∈ load_level_from_string ['#'], row ≠ []) ∧
      load_level_from_string (save_level_to_string (load_level_from_string ['#'])) =
        load_level_from_string ['#'] :=
  ⟨by decide, roundtrip_of_rows_nonempty ['#'] (by decide)⟩

/-- C7 counterexample: the three-line scenario input does not parse to the
grid claimed by the spec, whose middle row [0, 0, 0] contradicts the
mapping of the dot character to tile code 2. -/
theorem parse_scenario_counterexample :
    load_level_from_string ['#', '.', '#', '\n', '.', '.', '.', '\n', '#', 'o', '#'] ≠
      [[1, 2, 1], [0, 0, 0], [1, 3, 1]] := by decide

/-- C7 amended: the three-line input parses to [[1, 2, 1], [2, 2, 2],
[1, 3, 1]], the middle dots becoming small pellets (code 2). -/
theorem parse_scenario :
    load_level_from_string ['#', '.', '#', '\n', '.', '.', '.', '\n', '#', 'o', '#'] =
      [[1, 2, 1], [2, 2, 2], [1, 3, 1]] := by decide

/-- C8: the parser is total; every row of the result has the same length,
namely the byte width of the longest line; every cell is one of 0, 1, 2, 3;
each row is the character-wise image of its line under the mapping hash to
1, dot to 2, letter o to 3 and everything else to 0, padded with zeros. -/
theorem parse_total_normalized (content : List Char) :
    (∀ row ∈ load_level_from_string content,
        row.length = listMax ((linesOf content).map utf8Len)) ∧
    (∀ row ∈ load_level_from_string content, ∀ t ∈ row, t = 0 ∨ t = 1 ∨ t = 2 ∨ t = 3) ∧
    load_level_from_string content =
      (linesOf content).map
        (fun line => line.map tileOfChar ++
          List.replicate (listMax ((linesOf content).map utf8Len) - line.length) 0) ∧
    tileOfChar '#' = 1 ∧ tileOfChar '.' = 2 ∧ tileOfChar 'o' = 3 ∧
    (∀ c : Char, c ≠ '#' → c ≠ '.' → c ≠ 'o' → tileOfChar c = 0) := by
  refine ⟨load_row_length content, ?_, load_shape content, rfl, rfl, rfl, ?_⟩
  · intro row hrow t ht
    have := load_cells_le content row hrow t ht
    omega
  · intro c h1 h2 h3
    unfold tileOfChar
    repeat' split
    all_goals simp_all

/-- C8 witness: instantiation on a concrete ragged-free input, with the
default character clause applied at a space. -/
theorem parse_total_witness :
    (∀ row ∈ load_level_from_string ['#', 'o'], row.length =
        listMax ((linesOf ['#', 'o']).map utf8Len)) ∧ tileOfChar ' ' = 0 :=
  ⟨(parse_total_normalized ['#', 'o']).1,
    (parse_total_normalized ['#', 'o']).2.2.2.2.2.2 ' ' (by decide) (by decide) (by decide)⟩

/-- C9: whenever the desired direction is not Stopped and the bounding box
one step along it is walkable, the update step sets the actual direction to
the desired direction, whatever the current actual direction is. -/
theorem queued_turn_applies (dt : ℚ) (map : List (List ℕ)) (s : PlayerState)
    (hd : s.desired_direction ≠ Direction.Stopped)
    (hw : is_rect_walkable
        (playerRect (movePos s.posX s.posY s.desired_direction (PLAYER_SPEED * dt)).1
          (movePos s.posX s.posY s.desired_direction (PLAYER_SPEED * dt)).2) map = true) :
    (update dt map s).direction = s.desired_direction := by
  have he : effectiveDirection dt map s = s.desired_direction := by
    simp only [effectiveDirection]
    rw [if_pos]
    rw [Bool.and_eq_true, direction_bne_iff]
    exact ⟨hd, hw⟩
  simp only [update, he]
  rw [if_pos hw]

/-- C9 witness: with a queued East turn and a legal one-pixel move, the
update step adopts the East direction. -/
theorem queued_turn_witness :
    (update (1 / 40) [[0, 0]] (PlayerState.mk 4 44 Direction.Stopped Direction.East)).direction =
      Direction.East :=
  queued_turn_applies (1 / 40) [[0, 0]] (PlayerState.mk 4 44 Direction.Stopped Direction.East)
    (by decide) (by
      simp only [movePos, is_rect_walkable, is_tile_walkable, playerRect]
      norm_num [truncQ, TILE_SIZE, MAZE_OFFSET_Y, PLAYER_SPEED]
      decide)

/-- C10: on any grid whose rows all have the same length, the lib.rs wall
test (bounds against the indexed row) and the main.rs wall test (bounds
against the first row) agree at every coordinate. -/
theorem is_wall_at_agrees (map : List (List ℕ))
    (h : ∀ r1 ∈ map, ∀ r2 ∈ map, r1.length = r2.length) (x y : ℤ) :
    is_wall_at x y map = is_wall_at_main x y map := by
  by_cases hy : y < 0 ∨ (map.length : ℤ) ≤ y
  · have h1 : is_wall_at x y map = true := by
      simp only [is_wall_at]
      rw [if_pos]
      simpa using hy
    have h2 : is_wall_at_main x y map = true := by
      simp only [is_wall_at_main]
      rw [if_pos]
      rcases hy with hy | hy <;> simp [hy]
    rw [h1, h2]
  · push_neg at hy
    obtain ⟨hy0, hylen⟩ := hy
    have hylt : y.toNat < map.length := by omega
    have h0lt : 0 < map.length := by omega
    have hrow : map.getD y.toNat [] = map[y.toNat] := List.getD_eq_getElem map [] hylt
    have hhead : map.getD 0 [] = map[0] := List.getD_eq_getElem map [] h0lt
    have hlen : (map.getD y.toNat []).length = (map.getD 0 []).length := by
      rw [hrow, hhead]
      exact h _ (List.getElem_mem hylt) _ (List.getElem_mem h0lt)
    have hy1 : ¬(y < 0) := by omega
    have hy2 : ¬((map.length : ℤ) ≤ y) := by omega
    simp only [is_wall_at, is_wall_at_main, ← hlen]
    simp [hy1, hy2]

/-- C10 witness: the two wall tests agree at a concrete coordinate of a
concrete rectangular grid. -/
theorem is_wall_at_agrees_witness :
    is_wall_at 1 0 [[0, 1], [1, 0]] = is_wall_at_main 1 0 [[0, 1], [1, 0]] :=
  is_wall_at_agrees [[0, 1], [1, 0]] (by decide) 1 0
